import Mathlib

/-!
Shallow embedding of the action-dependency executor of `tools/idf.py`.

The embedded fragment is:
  * the `ACTIONS` registry table (idf.py lines 284-304),
  * the recursive `execute_action` resolver and the `while` loop that
    drives it (idf.py lines 328-351),
  * the `__main__` wrapper that maps a propagated `FatalError` to process
    exit code 2 and normal termination to exit code 0 (lines 354-359),
  * the `flasher_args_path` table inside the `flash` handler (lines 215-220).

External handler behaviour (cmake/esptool/monitor subprocesses) is abstracted
by an environment `HandlerEnv` that says, for a handler and the action name it
is invoked with, whether the invocation succeeds or raises `FatalError`.
Python's bounded call stack is modelled by a fuel parameter: exhausting the
fuel corresponds to `RecursionError`.  Executed handler invocations are
recorded in an append-only trace `(handler, action-name)` in invocation order.
-/

/-- The concrete handler functions that appear as values in `ACTIONS`. -/
inductive Handler where
  | build_target
  | flash
  | erase_flash
  | monitor
  | clean
  | fullclean
  deriving DecidableEq, Repr

/-- The `function` slot of an `ACTIONS` entry.  In the Python source this is
either a function object or a plain string; the executor treats the value as
an alias exactly when `function in ACTIONS`, i.e. when it is a string that is
a key of the registry. -/
inductive Operation where
  | func (h : Handler)
  | name (s : String)
  deriving DecidableEq, Repr

/-- One registry value: `(function, dependencies, order_dependencies)`. -/
abbrev ActionEntry := Operation × List String × List String

/-- The registry: an association list mirroring the Python dict `ACTIONS`
(keys are unique). -/
abbrev Registry := List (String × ActionEntry)

/-- Dict lookup `ACTIONS[action]`, `none` meaning `KeyError`. -/
def lookupAction : Registry → String → Option ActionEntry
  | [], _ => none
  | (k, e) :: rest, a => if k = a then some e else lookupAction rest a

/-- The `ACTIONS` table of idf.py (lines 284-304), entry for entry, in source
order: action name, then `(function-or-alias, dependencies, order-only
dependencies)`. -/
def ACTIONS : Registry := [
  ("all",                   (Operation.func Handler.build_target, [], ["menuconfig", "clean", "fullclean"])),
  ("build",                 (Operation.name "all", [], [])),
  ("clean",                 (Operation.func Handler.clean, [], ["fullclean"])),
  ("fullclean",             (Operation.func Handler.fullclean, [], [])),
  ("menuconfig",            (Operation.func Handler.build_target, [], [])),
  ("size",                  (Operation.func Handler.build_target, [], ["app"])),
  ("size-components",       (Operation.func Handler.build_target, [], ["app"])),
  ("size-files",            (Operation.func Handler.build_target, [], ["app"])),
  ("bootloader",            (Operation.func Handler.build_target, [], [])),
  ("bootloader-clean",      (Operation.func Handler.build_target, [], [])),
  ("bootloader-flash",      (Operation.func Handler.flash, ["bootloader"], [])),
  ("app",                   (Operation.func Handler.build_target, [], [])),
  ("app-flash",             (Operation.func Handler.flash, [], ["app"])),
  ("partition_table",       (Operation.func Handler.build_target, [], [])),
  ("partition_table-flash", (Operation.func Handler.flash, ["partition_table"], [])),
  ("flash",                 (Operation.func Handler.flash, ["all"], [])),
  ("erase_flash",           (Operation.func Handler.erase_flash, [], [])),
  ("monitor",               (Operation.func Handler.monitor, [], ["flash", "partition_table-flash", "bootloader-flash", "app-flash"]))
]

/-- Errors that can propagate out of the executor.
`fatal` is Python's `FatalError` raised when a handler's external tool fails
(it records the failing handler and the action name it was invoked with);
`keyError` is `ACTIONS[action]` on an unknown name; `typeError` is calling a
string that is not a registry key; `recursionError` is Python's
`RecursionError` when the call stack (fuel) is exhausted. -/
inductive RunError where
  | fatal (h : Handler) (a : String)
  | keyError (a : String)
  | typeError (s : String)
  | recursionError
  deriving DecidableEq, Repr

/-- Abstracted behaviour of the external handlers: `true` means the handler
invocation `function(action, args)` returns normally, `false` means it raises
`FatalError`.  The global `args` object is constant during a run and folded
into the environment. -/
def HandlerEnv := Handler → String → Bool

/-- Environment in which every external tool succeeds. -/
def envTrue : HandlerEnv := fun _ _ => true

/-- Environment in which exactly the `clean` handler fails. -/
def envFailClean : HandlerEnv := fun h _ =>
  match h with
  | Handler.clean => false
  | _ => true

/-- Run-scoped mutable state: the `completed_actions` set (modelled as a
duplicate-free list, only membership is ever used) and the trace of handler
invocations performed so far, in order. -/
structure St where
  completed : List String
  trace : List (Handler × String)
  deriving DecidableEq, Repr

/-- Python `set.add`: insert unless already present. -/
def insertC (a : String) (c : List String) : List String :=
  if a ∈ c then c else a :: c

/-- Exception propagation: the second computation runs only if the first one
did not raise. -/
def andThen (r : St × Option RunError) (f : St → St × Option RunError) :
    St × Option RunError :=
  match r with
  | (st, none) => f st
  | (st, some e) => (st, some e)

/-- A `for dep in ...` loop whose body may raise: runs `f` on each list
element left to right, stopping at the first error. -/
def runSeq (f : String → St → St × Option RunError) :
    List String → St → St × Option RunError
  | [], st => (st, none)
  | d :: ds, st => andThen (f d st) (runSeq f ds)

/-- `execute_action(action, remaining_actions)` of idf.py (lines 329-347),
parametrised by the registry and handler environment the closure reads.
Step for step:
  * `ACTIONS[action]` lookup (KeyError if absent);
  * hard-dependency loop: `if not dep in completed: execute_action(dep, remaining)`;
  * order-only loop: `if dep in remaining and not dep in completed: execute_action(dep, remaining)`;
  * the completed check, then the alias check `function in ACTIONS`, else
    the handler call `function(action, args)`;
  * `completed_actions.add(action)` — reached only when nothing above raised.
Each nested call costs one unit of fuel (one Python stack frame). -/
def executeAction (reg : Registry) (env : HandlerEnv) :
    Nat → String → List String → St → St × Option RunError
  | 0, _, _, st => (st, some RunError.recursionError)
  | fuel + 1, action, remaining, st =>
    match lookupAction reg action with
    | none => (st, some (RunError.keyError action))
    | some (function, dependencies, order_dependencies) =>
      andThen (runSeq (fun d st1 =>
          if d ∉ st1.completed then executeAction reg env fuel d remaining st1
          else (st1, none)) dependencies st) (fun stA =>
      andThen (runSeq (fun d st1 =>
          if d ∈ remaining ∧ d ∉ st1.completed then
            executeAction reg env fuel d remaining st1
          else (st1, none)) order_dependencies stA) (fun stB =>
      andThen (
        if action ∈ stB.completed then (stB, none)
        else match function with
          | Operation.name s =>
            if (lookupAction reg s).isSome then
              executeAction reg env fuel s remaining stB
            else (stB, some (RunError.typeError s))
          | Operation.func h =>
            ({ stB with trace := stB.trace ++ [(h, action)] },
             if env h action then none else some (RunError.fatal h action))) (fun stC =>
      ({ stC with completed := insertC action stC.completed }, none))))

/-- Result of a whole run: final state, the part of `args.actions` not yet
popped when the run ended, and the propagated error if any. -/
structure Outcome where
  state : St
  queue : List String
  err : Option RunError
  deriving DecidableEq, Repr

/-- The driver loop of `main` (idf.py lines 349-351):
`while len(args.actions) > 0: execute_action(args.actions[0], args.actions[1:]); args.actions.pop(0)`.
An uncaught error leaves the queue with the failing action still at its
front, exactly as the Python loop leaves `args.actions`. -/
def runLoop (reg : Registry) (env : HandlerEnv) (fuel : Nat) :
    List String → St → Outcome
  | [], st => ⟨st, [], none⟩
  | action :: rest, st =>
    match executeAction reg env fuel action rest st with
    | (st1, none) => runLoop reg env fuel rest st1
    | (st1, some e) => ⟨st1, action :: rest, some e⟩

/-- One full run over a requested action list, starting from an empty
`completed_actions` set and an empty trace. -/
def run (reg : Registry) (env : HandlerEnv) (fuel : Nat)
    (actions : List String) : Outcome :=
  runLoop reg env fuel actions ⟨[], []⟩

/-- The `__main__` wrapper (idf.py lines 354-359): `FatalError` is caught,
printed and turned into `sys.exit(2)`; normal return exits with 0; any other
uncaught exception makes the interpreter exit with 1. -/
def exitCode (r : Outcome) : Nat :=
  match r.err with
  | none => 0
  | some (RunError.fatal _ _) => 2
  | some _ => 1

/-- The `flasher_args_path` dict inside the `flash` handler (idf.py lines
215-220): action name to generated-argfile name, `none` meaning `KeyError`. -/
def flasherArgsPath : String → Option String
  | "bootloader-flash" => some "flash_bootloader_args"
  | "partition_table-flash" => some "flash_partition_table_args"
  | "app-flash" => some "flash_app_args"
  | "flash" => some "flash_project_args"
  | _ => none

/-- A two-element registry whose aliases form a cycle, used to examine what
the executor does on a cyclic alias configuration. -/
def cyclicRegistry : Registry :=
  [("x", (Operation.name "y", [], [])), ("y", (Operation.name "x", [], []))]

/-- Checks that every alias value in a registry is the name of an action
whose own operation is a concrete handler, so alias chains have length one
and in particular cannot form a cycle. -/
def aliasTargetsHandler (reg : Registry) : Bool :=
  reg.all (fun p =>
    match p.2.1 with
    | Operation.name s =>
      match lookupAction reg s with
      | some (Operation.func _, _, _) => true
      | _ => false
    | Operation.func _ => true)

/-- Names of the handler invocations of a state, in invocation order. -/
def traceNames (st : St) : List String := st.trace.map Prod.snd

/-- The operation registered for a name, if any. -/
def opOf (reg : Registry) (a : String) : Option Operation :=
  (lookupAction reg a).map (fun e => e.1)

/-- The hard-dependency list registered for a name (empty if unknown). -/
def hardDepsOf (reg : Registry) (a : String) : List String :=
  match lookupAction reg a with
  | some (_, ds, _) => ds
  | none => []

/-- The order-only dependency list registered for a name (empty if unknown). -/
def orderDepsOf (reg : Registry) (a : String) : List String :=
  match lookupAction reg a with
  | some (_, _, os) => os
  | none => []

example : (run ACTIONS envTrue 10 ["clean", "flash"]).state.trace =
    [(Handler.clean, "clean"), (Handler.build_target, "all"), (Handler.flash, "flash")] := by
  rfl

example : (run ACTIONS envTrue 10 ["flash", "flash"]).state.trace =
    [(Handler.build_target, "all"), (Handler.flash, "flash")] := by
  rfl

/-! ### Plumbing lemmas about exception propagation and loops -/

theorem andThen_ok {r : St × Option RunError} {f : St → St × Option RunError}
    (h : r.2 = none) : andThen r f = f r.1 := by
  obtain ⟨st, e⟩ := r
  cases e with
  | none => rfl
  | some e => simp at h

theorem andThen_err {r : St × Option RunError} {f : St → St × Option RunError}
    {e : RunError} (h : r.2 = some e) : andThen r f = r := by
  obtain ⟨st, e0⟩ := r
  cases e0 with
  | none => simp at h
  | some e0 => rfl

theorem andThen_ok_left {r : St × Option RunError} {f : St → St × Option RunError}
    (h : (andThen r f).2 = none) : r.2 = none := by
  obtain ⟨st, e⟩ := r
  cases e with
  | none => rfl
  | some e => simp [andThen] at h

theorem runSeq_id {f : String → St → St × Option RunError} {ds : List String}
    {st : St} (h : ∀ d ∈ ds, f d st = (st, none)) : runSeq f ds st = (st, none) := by
  induction ds with
  | nil => rfl
  | cons d ds ih =>
    have hd : f d st = (st, none) := h d (by simp)
    simp only [runSeq, hd, andThen]
    exact ih (fun d hdm => h d (by simp [hdm]))

/-- A step is monotone when it only grows the completed set and appends to
the trace. -/
def MonoStep (st : St) (r : St × Option RunError) : Prop :=
  st.completed ⊆ r.1.completed ∧ st.trace <+: r.1.trace

theorem MonoStep.rfl {st : St} {e : Option RunError} : MonoStep st (st, e) :=
  ⟨fun _ h => h, List.prefix_refl _⟩

theorem MonoStep.trans {st1 st2 : St} {e : Option RunError}
    {r : St × Option RunError} (h1 : MonoStep st1 (st2, e)) (h2 : MonoStep st2 r) :
    MonoStep st1 r :=
  ⟨fun _ ha => h2.1 (h1.1 ha), h1.2.trans h2.2⟩

theorem andThen_mono {st : St} {r : St × Option RunError}
    {f : St → St × Option RunError} (hr : MonoStep st r)
    (hf : ∀ st1, MonoStep st1 (f st1)) : MonoStep st (andThen r f) := by
  obtain ⟨st1, e⟩ := r
  cases e with
  | none => exact MonoStep.trans hr (hf st1)
  | some e => exact hr

theorem runSeq_mono {f : String → St → St × Option RunError}
    (hf : ∀ d st, MonoStep st (f d st)) :
    ∀ (ds : List String) (st : St), MonoStep st (runSeq f ds st) := by
  intro ds
  induction ds with
  | nil => intro st; exact MonoStep.rfl
  | cons d ds ih =>
    intro st
    exact andThen_mono (hf d st) (fun st1 => ih st1)

theorem subset_insertC {a : String} {c : List String} : c ⊆ insertC a c := by
  intro b hb
  unfold insertC
  by_cases h : a ∈ c <;> simp [h, hb]

theorem mem_insertC_self {a : String} {c : List String} : a ∈ insertC a c := by
  unfold insertC
  by_cases h : a ∈ c <;> simp [h]

theorem mem_insertC_of_mem {a b : String} {c : List String} (h : b ∈ c) :
    b ∈ insertC a c :=
  subset_insertC h

theorem mem_of_mem_insertC {a b : String} {c : List String}
    (h : b ∈ insertC a c) : b = a ∨ b ∈ c := by
  unfold insertC at h
  by_cases ha : a ∈ c <;> simp [ha] at h <;> tauto

theorem insertC_mem {a : String} {c : List String} (h : a ∈ c) :
    insertC a c = c := by
  simp [insertC, h]

/-! ### Run invariants -/

/-- Every trace entry was produced by the handler registered for its name. -/
def TraceReg (reg : Registry) (st : St) : Prop :=
  ∀ p ∈ st.trace, opOf reg p.2 = some (Operation.func p.1)

/-- Every completed action whose registered operation is a concrete handler
has a matching trace entry. -/
def CompTrace (reg : Registry) (st : St) : Prop :=
  ∀ a ∈ st.completed, ∀ h, opOf reg a = some (Operation.func h) → (h, a) ∈ st.trace

/-- All hard dependencies of every invoked action are completed. -/
def HardComp (reg : Registry) (st : St) : Prop :=
  ∀ p ∈ st.trace, ∀ d ∈ hardDepsOf reg p.2, d ∈ st.completed

/-- Every hard dependency with a handler operation was invoked strictly
before its dependent: wherever the trace splits at an entry `p`, the
handler invocations of `p`'s hard dependencies lie in the left part. -/
def HardPrec (reg : Registry) (st : St) : Prop :=
  ∀ (t1 : List (Handler × String)) (p : Handler × String)
    (t2 : List (Handler × String)),
    st.trace = t1 ++ p :: t2 →
    ∀ d ∈ hardDepsOf reg p.2, ∀ hd,
      opOf reg d = some (Operation.func hd) → (hd, d) ∈ t1

/-- Every invoked action is completed (holds between calls; a failing
invocation is the last trace entry and is not completed). -/
def TraceComp (st : St) : Prop := ∀ p ∈ st.trace, p.2 ∈ st.completed

/-- Invariant bundle that holds in every state, successful or not. -/
def InvCore (reg : Registry) (st : St) : Prop :=
  (traceNames st).Nodup ∧ TraceReg reg st ∧ CompTrace reg st ∧
    HardComp reg st ∧ HardPrec reg st

/-- Residual facts depending on how a computation ended: on success (and on
errors raised before any invocation) every invoked action is completed; on a
handler failure the failing invocation is the final trace entry and all
earlier invocations are completed. -/
def ErrInv (st : St) : Option RunError → Prop
  | none => TraceComp st
  | some (RunError.fatal h a) =>
      st.trace.getLast? = some (h, a) ∧ ∀ p ∈ st.trace.dropLast, p.2 ∈ st.completed
  | some _ => TraceComp st

theorem traceNames_subset {st : St} (h : TraceComp st) :
    ∀ a ∈ traceNames st, a ∈ st.completed := by
  intro a ha
  obtain ⟨p, hp, rfl⟩ := List.mem_map.mp ha
  exact h p hp

/-- Splitting a one-element extension of a list: the split point is either
inside the old part or exactly at the new element. -/
theorem concat_split {α : Type} {l : List α} {q p : α} {t1 t2 : List α}
    (h : l ++ [q] = t1 ++ p :: t2) :
    (∃ t2p, l = t1 ++ p :: t2p) ∨ (t1 = l ∧ p = q ∧ t2 = []) := by
  rcases List.eq_nil_or_concat t2 with h2 | ⟨t2p, q2, rfl⟩
  · subst h2
    have := List.append_inj' h (by simp)
    right
    refine ⟨this.1.symm, ?_, rfl⟩
    have h2 := this.2
    simp at h2
    exact h2.symm
  · rw [List.concat_eq_append] at h ⊢
    have hre : t1 ++ p :: (t2p ++ [q2]) = (t1 ++ p :: t2p) ++ [q2] := by simp
    rw [hre] at h
    have := List.append_inj' h (by simp)
    exact Or.inl ⟨t2p, this.1⟩

theorem nodup_concat {α : Type} [DecidableEq α] {l : List α} {a : α}
    (h1 : l.Nodup) (h2 : a ∉ l) : (l ++ [a]).Nodup := by
  simp [List.nodup_append, h1, h2]

/-- `execute_action` never removes completed actions and never erases trace
entries. -/
theorem executeAction_mono (reg : Registry) (env : HandlerEnv) :
    ∀ (fuel : Nat) (a : String) (rem : List String) (st : St),
      MonoStep st (executeAction reg env fuel a rem st) := by
  intro fuel
  induction fuel with
  | zero => intro _ _ st; exact MonoStep.rfl
  | succ fuel ih =>
    intro a rem st
    simp only [executeAction]
    cases hlk : lookupAction reg a with
    | none => exact MonoStep.rfl
    | some entry =>
      obtain ⟨function, dependencies, order_dependencies⟩ := entry
      refine andThen_mono (runSeq_mono ?_ _ _) (fun stA => ?_)
      · intro d st1
        by_cases h : d ∉ st1.completed <;> simp [h] <;> first | exact ih d rem st1 | exact MonoStep.rfl
      refine andThen_mono (runSeq_mono ?_ _ _) (fun stB => ?_)
      · intro d st1
        by_cases h : d ∈ rem ∧ d ∉ st1.completed <;> simp [h] <;>
          first | exact ih d rem st1 | exact MonoStep.rfl
      refine andThen_mono ?_ (fun stC => ⟨subset_insertC, List.prefix_refl _⟩)
      by_cases hc : a ∈ stB.completed
      · simp [hc]; exact MonoStep.rfl
      · simp only [hc, if_false]
        cases function with
        | name s =>
          by_cases hs : (lookupAction reg s).isSome <;> simp [hs]
          · exact ih s rem stB
          · exact MonoStep.rfl
        | func h =>
          exact ⟨fun _ hx => hx, List.prefix_append _ _⟩

theorem runSeq_inv {reg : Registry} {f : String → St → St × Option RunError}
    (hf : ∀ d st, InvCore reg st → TraceComp st → ∀ st' e', f d st = (st', e') →
      InvCore reg st' ∧ ErrInv st' e') :
    ∀ (ds : List String) (st : St), InvCore reg st → TraceComp st →
      ∀ st' e', runSeq f ds st = (st', e') → InvCore reg st' ∧ ErrInv st' e' := by
  intro ds
  induction ds with
  | nil =>
    intro st hc htc st' e' heq
    rw [runSeq] at heq
    cases heq
    exact ⟨hc, htc⟩
  | cons d ds ih =>
    intro st hc htc st' e' heq
    rcases hfd : f d st with ⟨st1, e1⟩
    cases e1 with
    | none =>
      rw [runSeq, hfd] at heq
      simp only [andThen] at heq
      have h1 := hf d st hc htc st1 none hfd
      exact ih st1 h1.1 h1.2 st' e' heq
    | some e =>
      rw [runSeq, hfd] at heq
      simp only [andThen] at heq
      cases heq
      exact hf d st hc htc _ _ hfd

theorem runSeq_complete {f : String → St → St × Option RunError}
    (hmono : ∀ d st, MonoStep st (f d st))
    (hf : ∀ d st st', f d st = (st', none) → d ∈ st'.completed) :
    ∀ (ds : List String) (st st' : St), runSeq f ds st = (st', none) →
      ∀ d ∈ ds, d ∈ st'.completed := by
  intro ds
  induction ds with
  | nil => intro st st' heq d hd; simp at hd
  | cons d0 ds ih =>
    intro st st' heq d hd
    rcases hfd : f d0 st with ⟨st1, e1⟩
    cases e1 with
    | none =>
      rw [runSeq, hfd] at heq
      simp only [andThen] at heq
      rcases List.mem_cons.mp hd with rfl | hdm
      · have h1 : d ∈ st1.completed := hf d st st1 hfd
        have h2 := runSeq_mono hmono ds st1
        rw [heq] at h2
        exact h2.1 h1
      · exact ih st1 st' heq d hdm
    | some e =>
      rw [runSeq, hfd] at heq
      simp only [andThen] at heq
      exact absurd (congrArg Prod.snd heq) (by simp)

theorem andThen_none {r : St × Option RunError} {f : St → St × Option RunError}
    {st' : St} (h : andThen r f = (st', none)) :
    r.2 = none ∧ f r.1 = (st', none) := by
  obtain ⟨st0, e0⟩ := r
  cases e0 with
  | none => exact ⟨rfl, h⟩
  | some e => simp [andThen] at h

/-- Whenever `execute_action(action, ...)` returns normally, `action` is in
the completed set afterwards (the unconditional `completed_actions.add` at
the end of the function body). -/
theorem executeAction_complete (reg : Registry) (env : HandlerEnv)
    (fuel : Nat) (a : String) (rem : List String) (st st' : St)
    (heq : executeAction reg env fuel a rem st = (st', none)) :
    a ∈ st'.completed := by
  cases fuel with
  | zero => rw [executeAction] at heq; cases heq
  | succ fuel =>
    rw [executeAction] at heq
    split at heq
    · cases heq
    · rename_i function dependencies order_dependencies hlk
      obtain ⟨-, heq⟩ := andThen_none heq
      obtain ⟨-, heq⟩ := andThen_none heq
      obtain ⟨-, heq⟩ := andThen_none heq
      cases heq
      exact mem_insertC_self

/-- The invariant bundle survives appending a handler invocation `(hH, a)`
for a not-yet-completed action `a` whose registered operation is the handler
`hH` and whose hard dependencies are all completed. -/
theorem invcore_append (reg : Registry) {st2 : St} {a : String} {hH : Handler}
    {dependencies order_dependencies : List String}
    (hc2 : InvCore reg st2) (htc2 : TraceComp st2)
    (hlk : lookupAction reg a = some (Operation.func hH, dependencies, order_dependencies))
    (hmem : a ∉ st2.completed)
    (hdeps2 : ∀ d ∈ dependencies, d ∈ st2.completed) :
    InvCore reg { st2 with trace := st2.trace ++ [(hH, a)] } := by
  obtain ⟨hnd2, htr2, hct2, hhc2, hhp2⟩ := hc2
  have hopa : opOf reg a = some (Operation.func hH) := by
    simp [opOf, hlk]
  have hhd : hardDepsOf reg a = dependencies := by
    simp [hardDepsOf, hlk]
  have hnotin : a ∉ traceNames st2 :=
    fun hmemn => hmem (traceNames_subset htc2 a hmemn)
  refine ⟨?_, ?_, ?_, ?_, ?_⟩
  · show ((st2.trace ++ [(hH, a)]).map Prod.snd).Nodup
    rw [List.map_append]
    exact nodup_concat hnd2 hnotin
  · intro p hp
    rcases List.mem_append.mp hp with hold | hnew
    · exact htr2 p hold
    · rcases List.mem_singleton.mp hnew with rfl
      exact hopa
  · intro b hb hH2 hop
    exact List.mem_append_left _ (hct2 b hb hH2 hop)
  · intro p hp d hd
    rcases List.mem_append.mp hp with hold | hnew
    · exact hhc2 p hold d hd
    · rcases List.mem_singleton.mp hnew with rfl
      rw [hhd] at hd
      exact hdeps2 d hd
  · intro t1 p t2 hsplit d hd hd2 hop2
    rcases concat_split hsplit with ⟨t2p, hold⟩ | ⟨ht1, hpq, -⟩
    · exact hhp2 t1 p t2p hold d hd hd2 hop2
    · subst hpq
      rw [hhd] at hd
      rw [ht1]
      exact hct2 d (hdeps2 d hd) hd2 hop2

/-- The invariant bundle survives the final `completed_actions.add(action)`,
provided every trace entry is completed or is `action` itself, and any
handler operation registered for `action` already has its trace entry. -/
theorem inv_insert (reg : Registry) {stX : St} {a : String}
    (hc : InvCore reg stX)
    (htc : ∀ p ∈ stX.trace, p.2 ∈ stX.completed ∨ p.2 = a)
    (hjust : ∀ hh : Handler, opOf reg a = some (Operation.func hh) → (hh, a) ∈ stX.trace) :
    InvCore reg { stX with completed := insertC a stX.completed } ∧
      TraceComp { stX with completed := insertC a stX.completed } := by
  obtain ⟨hnd, htr, hct, hhc, hhp⟩ := hc
  refine ⟨⟨hnd, htr, ?_, ?_, hhp⟩, ?_⟩
  · intro b hb hh hop
    rcases mem_of_mem_insertC hb with rfl | hb2
    · exact hjust hh hop
    · exact hct b hb2 hh hop
  · intro p hp d hd
    exact mem_insertC_of_mem (hhc p hp d hd)
  · intro p hp
    rcases htc p hp with hin | hpa
    · exact mem_insertC_of_mem hin
    · rw [hpa]
      exact mem_insertC_self

/-- Main invariant theorem for `execute_action`: from an invariant-satisfying
state, every outcome satisfies the invariant bundle. -/
theorem executeAction_inv (reg : Registry) (env : HandlerEnv) :
    ∀ (fuel : Nat) (a : String) (rem : List String) (st : St),
      InvCore reg st → TraceComp st →
      ∀ (st' : St) (e' : Option RunError),
        executeAction reg env fuel a rem st = (st', e') →
        InvCore reg st' ∧ ErrInv st' e' := by
  intro fuel
  induction fuel with
  | zero =>
    intro a rem st hc htc st' e' heq
    rw [executeAction] at heq
    cases heq
    exact ⟨hc, htc⟩
  | succ fuel ih =>
    intro a rem st hc htc st' e' heq
    rw [executeAction] at heq
    split at heq
    · -- `ACTIONS[action]` raised KeyError: state unchanged
      cases heq
      exact ⟨hc, htc⟩
    · rename_i function dependencies order_dependencies hlk
      -- facts about the hard-dependency loop body
      have hmonoH : ∀ d st1, MonoStep st1
          ((fun d st1 => if d ∉ st1.completed then executeAction reg env fuel d rem st1
            else (st1, none)) d st1) := by
        intro d st1
        show MonoStep st1
          (if d ∉ st1.completed then executeAction reg env fuel d rem st1 else (st1, none))
        by_cases h : d ∉ st1.completed
        · rw [if_pos h]; exact executeAction_mono reg env fuel d rem st1
        · rw [if_neg h]; exact MonoStep.rfl
      have hinvH : ∀ d st1, InvCore reg st1 → TraceComp st1 → ∀ st2 e2,
          (fun d st1 => if d ∉ st1.completed then executeAction reg env fuel d rem st1
            else (st1, none)) d st1 = (st2, e2) → InvCore reg st2 ∧ ErrInv st2 e2 := by
        intro d st1 hc1 htc1 st2 e2 hfd
        have hfd2 : (if d ∉ st1.completed then executeAction reg env fuel d rem st1
            else (st1, none)) = (st2, e2) := hfd
        by_cases h : d ∉ st1.completed
        · rw [if_pos h] at hfd2
          exact ih d rem st1 hc1 htc1 st2 e2 hfd2
        · rw [if_neg h] at hfd2
          cases hfd2
          exact ⟨hc1, htc1⟩
      have hcompH : ∀ d st1 st2,
          (fun d st1 => if d ∉ st1.completed then executeAction reg env fuel d rem st1
            else (st1, none)) d st1 = (st2, none) → d ∈ st2.completed := by
        intro d st1 st2 hfd
        have hfd2 : (if d ∉ st1.completed then executeAction reg env fuel d rem st1
            else (st1, none)) = (st2, none) := hfd
        by_cases h : d ∉ st1.completed
        · rw [if_pos h] at hfd2
          exact executeAction_complete reg env fuel d rem st1 st2 hfd2
        · rw [if_neg h] at hfd2
          cases hfd2
          exact not_not.mp h
      -- facts about the order-only loop body
      have hmonoO : ∀ d st1, MonoStep st1
          ((fun d st1 => if d ∈ rem ∧ d ∉ st1.completed then
              executeAction reg env fuel d rem st1 else (st1, none)) d st1) := by
        intro d st1
        show MonoStep st1
          (if d ∈ rem ∧ d ∉ st1.completed then executeAction reg env fuel d rem st1
            else (st1, none))
        by_cases h : d ∈ rem ∧ d ∉ st1.completed
        · rw [if_pos h]; exact executeAction_mono reg env fuel d rem st1
        · rw [if_neg h]; exact MonoStep.rfl
      have hinvO : ∀ d st1, InvCore reg st1 → TraceComp st1 → ∀ st2 e2,
          (fun d st1 => if d ∈ rem ∧ d ∉ st1.completed then
              executeAction reg env fuel d rem st1 else (st1, none)) d st1 = (st2, e2) →
          InvCore reg st2 ∧ ErrInv st2 e2 := by
        intro d st1 hc1 htc1 st2 e2 hfd
        have hfd2 : (if d ∈ rem ∧ d ∉ st1.completed then
            executeAction reg env fuel d rem st1 else (st1, none)) = (st2, e2) := hfd
        by_cases h : d ∈ rem ∧ d ∉ st1.completed
        · rw [if_pos h] at hfd2
          exact ih d rem st1 hc1 htc1 st2 e2 hfd2
        · rw [if_neg h] at hfd2
          cases hfd2
          exact ⟨hc1, htc1⟩
      -- run the hard-dependency loop
      rcases hr1 : runSeq (fun d st1 =>
          if d ∉ st1.completed then executeAction reg env fuel d rem st1
          else (st1, none)) dependencies st with ⟨st1, e1⟩
      rw [hr1] at heq
      cases e1 with
      | some e =>
        simp only [andThen] at heq
        cases heq
        exact runSeq_inv hinvH dependencies st hc htc _ _ hr1
      | none =>
        obtain ⟨hc1, htc1⟩ := runSeq_inv hinvH dependencies st hc htc st1 none hr1
        have htc1 : TraceComp st1 := htc1
        have hdeps1 : ∀ d ∈ dependencies, d ∈ st1.completed :=
          runSeq_complete hmonoH hcompH dependencies st st1 hr1
        simp only [andThen] at heq
        -- run the order-only loop
        rcases hr2 : runSeq (fun d st1 =>
            if d ∈ rem ∧ d ∉ st1.completed then
              executeAction reg env fuel d rem st1 else (st1, none))
            order_dependencies st1 with ⟨st2, e2⟩
        rw [hr2] at heq
        cases e2 with
        | some e =>
          simp only [andThen] at heq
          cases heq
          exact runSeq_inv hinvO order_dependencies st1 hc1 htc1 _ _ hr2
        | none =>
          obtain ⟨hc2, htc2⟩ := runSeq_inv hinvO order_dependencies st1 hc1 htc1 st2 none hr2
          have htc2 : TraceComp st2 := htc2
          have hmono12 : MonoStep st1 (st2, (none : Option RunError)) := by
            have hmr := runSeq_mono hmonoO order_dependencies st1
            rw [hr2] at hmr
            exact hmr
          have hdeps2 : ∀ d ∈ dependencies, d ∈ st2.completed :=
            fun d hd => hmono12.1 (hdeps1 d hd)
          simp only [andThen] at heq
          -- decompose the dispatch step followed by `completed.add(action)`
          split at heq
          · -- the dispatch step returned normally; the final add runs
            rename_i stC hsc
            cases heq
            by_cases hmem : a ∈ st2.completed
            · rw [if_pos hmem] at hsc
              cases hsc
              exact inv_insert reg hc2 (fun p hp => Or.inl (htc2 p hp))
                (fun hh hop => hc2.2.2.1 a hmem hh hop)
            · rw [if_neg hmem] at hsc
              split at hsc
              · -- alias branch: `function` is a string that is a registry key
                rename_i s
                have hopa : opOf reg a = some (Operation.name s) := by
                  simp [opOf, hlk]
                by_cases hs : (lookupAction reg s).isSome = true
                · rw [if_pos hs] at hsc
                  obtain ⟨hc3, herr3⟩ := ih s rem st2 hc2 htc2 _ none hsc
                  have htc3 := herr3
                  refine inv_insert reg hc3 (fun p hp => Or.inl (htc3 p hp)) ?_
                  intro hh hop
                  rw [hopa] at hop
                  cases hop
                · rw [if_neg hs] at hsc
                  cases hsc
              · -- handler branch: `function` is a concrete handler
                rename_i hH
                have hopa : opOf reg a = some (Operation.func hH) := by
                  simp [opOf, hlk]
                cases henv : env hH a with
                | true =>
                  rw [if_pos henv] at hsc
                  cases hsc
                  have hcC : InvCore reg { st2 with trace := st2.trace ++ [(hH, a)] } :=
                    invcore_append reg hc2 htc2 hlk hmem hdeps2
                  refine inv_insert reg hcC ?_ ?_
                  · intro p hp
                    rcases List.mem_append.mp hp with hold | hnew
                    · exact Or.inl (htc2 p hold)
                    · rcases List.mem_singleton.mp hnew with rfl
                      exact Or.inr rfl
                  · intro hh hop
                    rw [hopa] at hop
                    cases hop
                    exact List.mem_append_right _ (List.mem_singleton.mpr rfl)
                | false =>
                  have hne : ¬ env hH a = true := by
                    rw [henv]; exact Bool.false_ne_true
                  rw [if_neg hne] at hsc
                  cases hsc
          · -- the dispatch step raised; the error propagates
            rename_i stC e3 hsc
            cases heq
            by_cases hmem : a ∈ st2.completed
            · rw [if_pos hmem] at hsc
              cases hsc
            · rw [if_neg hmem] at hsc
              split at hsc
              · rename_i s
                by_cases hs : (lookupAction reg s).isSome = true
                · rw [if_pos hs] at hsc
                  exact ih s rem st2 hc2 htc2 _ _ hsc
                · rw [if_neg hs] at hsc
                  cases hsc
                  exact ⟨hc2, htc2⟩
              · rename_i hH
                cases henv : env hH a with
                | true =>
                  rw [if_pos henv] at hsc
                  cases hsc
                | false =>
                  have hne : ¬ env hH a = true := by
                    rw [henv]; exact Bool.false_ne_true
                  rw [if_neg hne] at hsc
                  cases hsc
                  have hcC : InvCore reg { st2 with trace := st2.trace ++ [(hH, a)] } :=
                    invcore_append reg hc2 htc2 hlk hmem hdeps2
                  refine ⟨hcC, ?_, ?_⟩
                  · exact List.getLast?_concat _
                  · intro p hp
                    rw [List.dropLast_concat] at hp
                    exact htc2 p hp

/-- The driver loop never removes completed actions or trace entries. -/
theorem runLoop_mono (reg : Registry) (env : HandlerEnv) (fuel : Nat) :
    ∀ (q : List String) (st : St),
      st.completed ⊆ (runLoop reg env fuel q st).state.completed ∧
      st.trace <+: (runLoop reg env fuel q st).state.trace := by
  intro q
  induction q with
  | nil => intro st; exact ⟨fun _ h => h, List.prefix_refl _⟩
  | cons a rest ih =>
    intro st
    rcases hr : executeAction reg env fuel a rest st with ⟨st1, e1⟩
    have hm : MonoStep st (st1, e1) := by
      have hm0 := executeAction_mono reg env fuel a rest st
      rw [hr] at hm0
      exact hm0
    cases e1 with
    | none =>
      simp only [runLoop, hr]
      have hrest := ih st1
      exact ⟨fun b hb => hrest.1 (hm.1 hb), hm.2.trans hrest.2⟩
    | some e =>
      simp only [runLoop, hr]
      exact ⟨hm.1, hm.2⟩

/-- Invariants of a full driver-loop run, plus: on success the queue is
fully consumed and every queued action is completed. -/
theorem runLoop_inv (reg : Registry) (env : HandlerEnv) (fuel : Nat) :
    ∀ (q : List String) (st : St), InvCore reg st → TraceComp st →
      InvCore reg (runLoop reg env fuel q st).state ∧
      ErrInv (runLoop reg env fuel q st).state (runLoop reg env fuel q st).err ∧
      ((runLoop reg env fuel q st).err = none →
        (runLoop reg env fuel q st).queue = [] ∧
        ∀ a ∈ q, a ∈ (runLoop reg env fuel q st).state.completed) := by
  intro q
  induction q with
  | nil =>
    intro st hc htc
    exact ⟨hc, htc, fun _ => ⟨rfl, by simp⟩⟩
  | cons a rest ih =>
    intro st hc htc
    rcases hr : executeAction reg env fuel a rest st with ⟨st1, e1⟩
    cases e1 with
    | none =>
      simp only [runLoop, hr]
      obtain ⟨hc1, htc1⟩ := executeAction_inv reg env fuel a rest st hc htc st1 none hr
      have htc1 : TraceComp st1 := htc1
      obtain ⟨hcr, herr, hok⟩ := ih st1 hc1 htc1
      refine ⟨hcr, herr, fun hnone => ⟨(hok hnone).1, ?_⟩⟩
      intro b hb
      rcases List.mem_cons.mp hb with rfl | hbm
      · have hbc : b ∈ st1.completed := executeAction_complete reg env fuel b rest st st1 hr
        exact (runLoop_mono reg env fuel rest st1).1 hbc
      · exact (hok hnone).2 b hbm
    | some e =>
      simp only [runLoop, hr]
      obtain ⟨hc1, herr1⟩ := executeAction_inv reg env fuel a rest st hc htc st1 (some e) hr
      exact ⟨hc1, herr1, by simp⟩

/-- Specialisation of the loop invariants to a whole run (which starts from
the empty completed set and empty trace). -/
theorem run_inv (reg : Registry) (env : HandlerEnv) (fuel : Nat)
    (actions : List String) :
    InvCore reg (run reg env fuel actions).state ∧
    ErrInv (run reg env fuel actions).state (run reg env fuel actions).err ∧
    ((run reg env fuel actions).err = none →
      (run reg env fuel actions).queue = [] ∧
      ∀ a ∈ actions, a ∈ (run reg env fuel actions).state.completed) := by
  refine runLoop_inv reg env fuel actions ⟨[], []⟩ ?_ ?_
  · refine ⟨List.nodup_nil, ?_, ?_, ?_, ?_⟩
    · intro p hp; cases hp
    · intro b hb; cases hb
    · intro p hp; cases hp
    · intro t1 p t2 hsplit
      exact absurd hsplit (by simp)
  · intro p hp; cases hp

/-- Unfolding equation for `execute_action` when the registry entry of the
action holds a concrete handler. -/
theorem executeAction_unfold_func (reg : Registry) (env : HandlerEnv) (fuel : Nat)
    (a : String) (rem : List String) (st : St)
    (hh : Handler) (ds os : List String)
    (hlk : lookupAction reg a = some (Operation.func hh, ds, os)) :
    executeAction reg env (fuel + 1) a rem st =
      andThen (runSeq (fun d st1 =>
          if d ∉ st1.completed then executeAction reg env fuel d rem st1
          else (st1, none)) ds st) (fun stA =>
      andThen (runSeq (fun d st1 =>
          if d ∈ rem ∧ d ∉ st1.completed then
            executeAction reg env fuel d rem st1
          else (st1, none)) os stA) (fun stB =>
      andThen (
        if a ∈ stB.completed then (stB, none)
        else ({ stB with trace := stB.trace ++ [(hh, a)] },
              if env hh a then none else some (RunError.fatal hh a))) (fun stC =>
      ({ stC with completed := insertC a stC.completed }, none)))) := by
  simp only [executeAction, hlk]

/-- Unfolding equation for `execute_action` when the registry entry of the
action holds an alias string. -/
theorem executeAction_unfold_name (reg : Registry) (env : HandlerEnv) (fuel : Nat)
    (a : String) (rem : List String) (st : St)
    (s : String) (ds os : List String)
    (hlk : lookupAction reg a = some (Operation.name s, ds, os)) :
    executeAction reg env (fuel + 1) a rem st =
      andThen (runSeq (fun d st1 =>
          if d ∉ st1.completed then executeAction reg env fuel d rem st1
          else (st1, none)) ds st) (fun stA =>
      andThen (runSeq (fun d st1 =>
          if d ∈ rem ∧ d ∉ st1.completed then
            executeAction reg env fuel d rem st1
          else (st1, none)) os stA) (fun stB =>
      andThen (
        if a ∈ stB.completed then (stB, none)
        else if (lookupAction reg s).isSome then
          executeAction reg env fuel s rem stB
        else (stB, some (RunError.typeError s))) (fun stC =>
      ({ stC with completed := insertC a stC.completed }, none)))) := by
  simp only [executeAction, hlk]

/-- If `action` is already completed, all its hard dependencies are
completed, and each of its order-only dependencies is completed whenever it
is in `remaining`, then `execute_action` is a no-op: the dependency loops
skip every entry, the completed check short-circuits before any handler or
alias dispatch, and the final `completed_actions.add` changes nothing. -/
theorem executeAction_noop (reg : Registry) (env : HandlerEnv) (n : Nat)
    (a : String) (rem : List String) (st : St)
    (op : Operation) (ds os : List String)
    (hlk : lookupAction reg a = some (op, ds, os))
    (ha : a ∈ st.completed)
    (hh : ∀ d ∈ ds, d ∈ st.completed)
    (ho : ∀ d ∈ os, d ∈ rem → d ∈ st.completed) :
    executeAction reg env (n + 1) a rem st = (st, none) := by
  have h1 : runSeq (fun d st1 =>
      if d ∉ st1.completed then executeAction reg env n d rem st1
      else (st1, none)) ds st = (st, none) := by
    apply runSeq_id
    intro d hd
    show (if d ∉ st.completed then executeAction reg env n d rem st
      else (st, none)) = (st, none)
    rw [if_neg (not_not_intro (hh d hd))]
  have h2 : runSeq (fun d st1 =>
      if d ∈ rem ∧ d ∉ st1.completed then executeAction reg env n d rem st1
      else (st1, none)) os st = (st, none) := by
    apply runSeq_id
    intro d hd
    show (if d ∈ rem ∧ d ∉ st.completed then executeAction reg env n d rem st
      else (st, none)) = (st, none)
    rw [if_neg]
    rintro ⟨hdr, hdc⟩
    exact hdc (ho d hd hdr)
  cases op with
  | func hhand =>
    rw [executeAction_unfold_func reg env n a rem st hhand ds os hlk, h1, andThen_ok rfl]
    show andThen (runSeq (fun d st1 =>
        if d ∈ rem ∧ d ∉ st1.completed then executeAction reg env n d rem st1
        else (st1, none)) os st) (fun stB =>
      andThen (
        if a ∈ stB.completed then (stB, none)
        else ({ stB with trace := stB.trace ++ [(hhand, a)] },
              if env hhand a then none else some (RunError.fatal hhand a))) (fun stC =>
      ({ stC with completed := insertC a stC.completed }, none))) = (st, none)
    rw [h2, andThen_ok rfl]
    show andThen (
        if a ∈ st.completed then (st, none)
        else ({ st with trace := st.trace ++ [(hhand, a)] },
              if env hhand a then none else some (RunError.fatal hhand a))) (fun stC =>
      ({ stC with completed := insertC a stC.completed }, none)) = (st, none)
    rw [if_pos ha, andThen_ok rfl]
    show ({ st with completed := insertC a st.completed }, (none : Option RunError)) = (st, none)
    rw [insertC_mem ha]
  | name s =>
    rw [executeAction_unfold_name reg env n a rem st s ds os hlk, h1, andThen_ok rfl]
    show andThen (runSeq (fun d st1 =>
        if d ∈ rem ∧ d ∉ st1.completed then executeAction reg env n d rem st1
        else (st1, none)) os st) (fun stB =>
      andThen (
        if a ∈ stB.completed then (stB, none)
        else if (lookupAction reg s).isSome then
          executeAction reg env n s rem stB
        else (stB, some (RunError.typeError s))) (fun stC =>
      ({ stC with completed := insertC a stC.completed }, none))) = (st, none)
    rw [h2, andThen_ok rfl]
    show andThen (
        if a ∈ st.completed then (st, none)
        else if (lookupAction reg s).isSome then
          executeAction reg env n s rem st
        else (st, some (RunError.typeError s))) (fun stC =>
      ({ stC with completed := insertC a stC.completed }, none)) = (st, none)
    rw [if_pos ha, andThen_ok rfl]
    show ({ st with completed := insertC a st.completed }, (none : Option RunError)) = (st, none)
    rw [insertC_mem ha]

/-- If an action has a concrete handler, no hard dependencies, order-only
dependencies that all get skipped, and is not yet completed, then executing
it just invokes its handler and (on success) marks it completed. -/
theorem executeAction_invoke (reg : Registry) (env : HandlerEnv) (m : Nat)
    (a : String) (hh : Handler) (os : List String) (rem : List String) (st : St)
    (hlk : lookupAction reg a = some (Operation.func hh, [], os))
    (hskip : ∀ d ∈ os, ¬ (d ∈ rem ∧ d ∉ st.completed))
    (hnc : a ∉ st.completed) :
    executeAction reg env (m + 1) a rem st =
      if env hh a then (⟨insertC a st.completed, st.trace ++ [(hh, a)]⟩, none)
      else (⟨st.completed, st.trace ++ [(hh, a)]⟩, some (RunError.fatal hh a)) := by
  have h2 : runSeq (fun d st1 =>
      if d ∈ rem ∧ d ∉ st1.completed then executeAction reg env m d rem st1
      else (st1, none)) os st = (st, none) := by
    apply runSeq_id
    intro d hd
    show (if d ∈ rem ∧ d ∉ st.completed then executeAction reg env m d rem st
      else (st, none)) = (st, none)
    rw [if_neg (hskip d hd)]
  rw [executeAction_unfold_func reg env m a rem st hh [] os hlk]
  show andThen (runSeq (fun d st1 =>
      if d ∈ rem ∧ d ∉ st1.completed then executeAction reg env m d rem st1
      else (st1, none)) os st) (fun stB =>
    andThen (
      if a ∈ stB.completed then (stB, none)
      else ({ stB with trace := stB.trace ++ [(hh, a)] },
            if env hh a then none else some (RunError.fatal hh a))) (fun stC =>
    ({ stC with completed := insertC a stC.completed }, none))) = _
  rw [h2, andThen_ok rfl]
  show andThen (
      if a ∈ st.completed then (st, none)
      else ({ st with trace := st.trace ++ [(hh, a)] },
            if env hh a then none else some (RunError.fatal hh a))) (fun stC =>
    ({ stC with completed := insertC a stC.completed }, none)) = _
  rw [if_neg hnc]
  cases env hh a with
  | true => simp [andThen]
  | false => simp [andThen]

/-- C5 counterexample: with the shipped registry, calling `execute_action`
on `flash` in a state whose completed set is exactly `{flash}` is not a
no-op: the hard-dependency loop runs first and invokes the handler of
`all`, and the completed set grows, because the completed check happens
only after dependency resolution. -/
theorem C5_completed_not_noop_counterexample :
    executeAction ACTIONS envTrue 10 "flash" [] ⟨["flash"], []⟩ =
      (⟨["all", "flash"], [(Handler.build_target, "all")]⟩, none) := by
  rfl

/-- C5 (amended): calling `execute` on an action already in the completed
set is a complete no-op — no handler invoked, state unchanged — provided
its hard dependencies are completed and each order-only dependency is
completed whenever it is in the remaining queue (which is the case in every
state a run can actually reach); with an arbitrary completed set the
dependency loops still run first and may invoke handlers. -/
theorem C5_completed_noop (reg : Registry) (env : HandlerEnv) (n : Nat)
    (a : String) (rem : List String) (st : St)
    (op : Operation) (ds os : List String)
    (hlk : lookupAction reg a = some (op, ds, os))
    (ha : a ∈ st.completed)
    (hh : ∀ d ∈ ds, d ∈ st.completed)
    (ho : ∀ d ∈ os, d ∈ rem → d ∈ st.completed) :
    executeAction reg env (n + 1) a rem st = (st, none) :=
  executeAction_noop reg env n a rem st op ds os hlk ha hh ho

theorem C5_completed_noop_witness :
    executeAction ACTIONS envTrue 5 "fullclean" [] ⟨["fullclean"], []⟩ =
      (⟨["fullclean"], []⟩, none) :=
  C5_completed_noop ACTIONS envTrue 4 "fullclean" [] ⟨["fullclean"], []⟩
    (Operation.func Handler.fullclean) [] [] (by rfl) (by decide)
    (by intro d hd; cases hd) (by intro d hd; cases hd)

set_option maxRecDepth 10000 in
/-- C4 counterexample: on a registry whose aliases form a cycle the
executor reaches the recursion depth limit at runtime (it starts executing
and recurses through the alias chain) instead of failing fast with a
configuration error before execution. -/
theorem C4_cyclic_alias_counterexample :
    executeAction cyclicRegistry envTrue 100 "x" [] ⟨[], []⟩ =
      (⟨[], []⟩, some RunError.recursionError) := by
  rfl

/-- C4 (amended): the program performs no Registry validation at startup
and raises no configuration error for alias cycles; a cyclic alias
configuration exhausts every recursion depth at runtime.  The shipped
`ACTIONS` table happens to contain no alias cycle: its every alias points
directly at an action whose operation is a concrete handler. -/
theorem C4_no_alias_validation :
    aliasTargetsHandler ACTIONS = true ∧
    ∀ n : Nat, executeAction cyclicRegistry envTrue n "x" [] ⟨[], []⟩ =
      (⟨[], []⟩, some RunError.recursionError) := by
  constructor
  · rfl
  · have hxy : ∀ n : Nat,
        executeAction cyclicRegistry envTrue n "x" [] ⟨[], []⟩ =
          (⟨[], []⟩, some RunError.recursionError) ∧
        executeAction cyclicRegistry envTrue n "y" [] ⟨[], []⟩ =
          (⟨[], []⟩, some RunError.recursionError) := by
      intro n
      induction n with
      | zero => exact ⟨rfl, rfl⟩
      | succ n ihn =>
        constructor
        · have hstep : executeAction cyclicRegistry envTrue (n + 1) "x" [] ⟨[], []⟩ =
              andThen (executeAction cyclicRegistry envTrue n "y" [] ⟨[], []⟩)
                (fun stC => ({ stC with completed := insertC "x" stC.completed }, none)) := by
            rw [executeAction_unfold_name cyclicRegistry envTrue n "x" [] ⟨[], []⟩
              "y" [] [] (by rfl)]
            rfl
          rw [hstep, ihn.2, andThen_err rfl]
        · have hstep : executeAction cyclicRegistry envTrue (n + 1) "y" [] ⟨[], []⟩ =
              andThen (executeAction cyclicRegistry envTrue n "x" [] ⟨[], []⟩)
                (fun stC => ({ stC with completed := insertC "y" stC.completed }, none)) := by
            rw [executeAction_unfold_name cyclicRegistry envTrue n "y" [] ⟨[], []⟩
              "x" [] [] (by rfl)]
            rfl
          rw [hstep, ihn.1, andThen_err rfl]
    exact fun n => (hxy n).1

/-- C8: with the shipped registry and all external tools succeeding,
requesting `[clean, flash]` invokes exactly three handlers, in order:
`clean` on `clean`, the build backend on `all` (pulled in as the hard
dependency of `flash`; its order-only dependencies are all skipped), and
`flash` on `flash`; the run succeeds. -/
theorem C8_clean_flash_scenario :
    (run ACTIONS envTrue 10 ["clean", "flash"]).state.trace =
      [(Handler.clean, "clean"), (Handler.build_target, "all"), (Handler.flash, "flash")] ∧
    (run ACTIONS envTrue 10 ["clean", "flash"]).err = none := by
  exact ⟨rfl, rfl⟩

theorem lookup_mem {reg : Registry} {a : String} {e : ActionEntry}
    (h : lookupAction reg a = some e) : (a, e) ∈ reg := by
  induction reg with
  | nil => cases h
  | cons p rest ih =>
    obtain ⟨k, e0⟩ := p
    rw [lookupAction] at h
    by_cases hk : k = a
    · rw [if_pos hk] at h
      cases h
      subst hk
      exact List.mem_cons_self _ _
    · rw [if_neg hk] at h
      exact List.mem_cons_of_mem _ (ih h)

/-- C1: in any run over the shipped registry (any handler behaviour, any
recursion budget, any requested list) the trace of handler invocations
carries pairwise distinct action names, so no action is executed twice;
every completed action whose registered operation is a concrete handler was
invoked exactly once; and on a successful run every requested name —
however often it appears in the list — is completed. -/
theorem C1_dedup (env : HandlerEnv) (fuel : Nat) (actions : List String) :
    (traceNames (run ACTIONS env fuel actions).state).Nodup ∧
    (∀ a ∈ (run ACTIONS env fuel actions).state.completed, ∀ h : Handler,
      opOf ACTIONS a = some (Operation.func h) →
      (traceNames (run ACTIONS env fuel actions).state).count a = 1) ∧
    ((run ACTIONS env fuel actions).err = none →
      ∀ a ∈ actions, a ∈ (run ACTIONS env fuel actions).state.completed) := by
  obtain ⟨⟨hnd, htr, hct, hhc, hhp⟩, herr, hok⟩ := run_inv ACTIONS env fuel actions
  refine ⟨hnd, ?_, fun hnone => (hok hnone).2⟩
  intro a ha h hop
  have hmem : (h, a) ∈ (run ACTIONS env fuel actions).state.trace := hct a ha h hop
  have hmemn : a ∈ traceNames (run ACTIONS env fuel actions).state :=
    List.mem_map.mpr ⟨(h, a), hmem, rfl⟩
  exact List.count_eq_one_of_mem hnd hmemn

theorem C1_dedup_witness :
    (traceNames (run ACTIONS envTrue 20 ["fullclean", "fullclean"]).state).count
      "fullclean" = 1 :=
  (C1_dedup envTrue 20 ["fullclean", "fullclean"]).2.1 "fullclean" (by decide)
    Handler.fullclean (by rfl)

/-- C2: in any run over the shipped registry, wherever the trace splits at
an invocation of an action `A`, the handler invocation of each hard
dependency `D` of `A` (with a concrete handler operation) lies strictly
earlier in the trace — whether or not `D` was ever requested. -/
theorem C2_hard_dep_precedes (env : HandlerEnv) (fuel : Nat) (actions : List String)
    (t1 t2 : List (Handler × String)) (hA : Handler) (A D : String) (hD : Handler)
    (hsplit : (run ACTIONS env fuel actions).state.trace = t1 ++ (hA, A) :: t2)
    (hdep : D ∈ hardDepsOf ACTIONS A)
    (hop : opOf ACTIONS D = some (Operation.func hD)) :
    (hD, D) ∈ t1 := by
  obtain ⟨⟨hnd, htr, hct, hhc, hhp⟩, -, -⟩ := run_inv ACTIONS env fuel actions
  exact hhp t1 (hA, A) t2 hsplit D hdep hD hop

theorem C2_hard_dep_precedes_witness :
    (Handler.build_target, "all") ∈ [(Handler.build_target, "all")] :=
  C2_hard_dep_precedes envTrue 20 ["flash"] [(Handler.build_target, "all")] []
    Handler.flash "flash" "all" Handler.build_target (by rfl) (by decide) (by rfl)

/-- C10: whenever a run over the shipped registry ends without any failure,
every name of the original requested list is completed, the requested queue
has been fully consumed, and every invoked action has all of its hard
dependencies in the completed set. -/
theorem C10_run_postconditions (env : HandlerEnv) (fuel : Nat) (actions : List String)
    (hok : (run ACTIONS env fuel actions).err = none) :
    (∀ a ∈ actions, a ∈ (run ACTIONS env fuel actions).state.completed) ∧
    (run ACTIONS env fuel actions).queue = [] ∧
    (∀ p ∈ (run ACTIONS env fuel actions).state.trace,
      ∀ d ∈ hardDepsOf ACTIONS p.2,
        d ∈ (run ACTIONS env fuel actions).state.completed) := by
  obtain ⟨⟨hnd, htr, hct, hhc, hhp⟩, herr, hokq⟩ := run_inv ACTIONS env fuel actions
  exact ⟨(hokq hok).2, (hokq hok).1, hhc⟩

theorem C10_run_postconditions_witness :
    "flash" ∈ (run ACTIONS envTrue 20 ["flash"]).state.completed ∧
    (run ACTIONS envTrue 20 ["flash"]).queue = [] :=
  ⟨(C10_run_postconditions envTrue 20 ["flash"] (by rfl)).1 "flash" (by decide),
   (C10_run_postconditions envTrue 20 ["flash"] (by rfl)).2.1⟩

/-- C9: every action of the shipped registry whose operation is the `flash`
handler is a key of the handler's internal action-to-argfile table, and
consequently in any run over the shipped registry every `flash`-handler
invocation looks up an action name on which the table is defined. -/
theorem C9_flash_argfile_total :
    (∀ p ∈ ACTIONS, p.2.1 = Operation.func Handler.flash →
      (flasherArgsPath p.1).isSome = true) ∧
    (∀ (env : HandlerEnv) (fuel : Nat) (actions : List String),
      ∀ p ∈ (run ACTIONS env fuel actions).state.trace,
        p.1 = Handler.flash → (flasherArgsPath p.2).isSome = true) := by
  have hall : ∀ q ∈ ACTIONS, q.2.1 = Operation.func Handler.flash →
      (flasherArgsPath q.1).isSome = true := by decide
  refine ⟨hall, ?_⟩
  intro env fuel actions p hp hflash
  obtain ⟨⟨hnd, htr, hct, hhc, hhp⟩, -, -⟩ := run_inv ACTIONS env fuel actions
  have hop := htr p hp
  rw [hflash] at hop
  rcases he : lookupAction ACTIONS p.2 with - | e
  · rw [opOf, he] at hop
    cases hop
  · have hmem := lookup_mem he
    have h1 : e.1 = Operation.func Handler.flash := by
      rw [opOf, he] at hop
      simpa using hop
    exact hall (p.2, e) hmem h1

theorem C9_flash_argfile_total_witness :
    (flasherArgsPath "flash").isSome = true :=
  C9_flash_argfile_total.1 ("flash", (Operation.func Handler.flash, ["all"], []))
    (by decide) (by rfl)

theorem mem_dropLast_or_eq {α : Type} {l : List α} {x : α}
    (h : l.getLast? = some x) : ∀ p ∈ l, p ∈ l.dropLast ∨ p = x := by
  rcases List.eq_nil_or_concat l with rfl | ⟨l2, q, rfl⟩
  · intro p hp; cases hp
  · rw [List.concat_eq_append] at h ⊢
    rw [List.getLast?_concat] at h
    cases h
    intro p hp
    rw [List.dropLast_concat]
    rcases List.mem_append.mp hp with h1 | h2
    · exact Or.inl h1
    · exact Or.inr (List.mem_singleton.mp h2)

/-- C6: for any registry, requesting an alias action `X` whose operation is
the name of a registered action `Y`, where `X` has no dependencies of its
own, produces exactly the same handler-invocation trace (same handlers,
same action-name arguments, same order) and the same final error as
requesting `Y` directly, at one extra level of recursion depth for the
alias indirection; and on success both `X` and `Y` end up completed. -/
theorem C6_alias_transparent (reg : Registry) (env : HandlerEnv) (fuel : Nat)
    (X Y : String) (eY : ActionEntry)
    (hX : lookupAction reg X = some (Operation.name Y, [], []))
    (hY : lookupAction reg Y = some eY) :
    (run reg env (fuel + 1) [X]).state.trace = (run reg env fuel [Y]).state.trace ∧
    (run reg env (fuel + 1) [X]).err = (run reg env fuel [Y]).err ∧
    ((run reg env (fuel + 1) [X]).err = none →
      X ∈ (run reg env (fuel + 1) [X]).state.completed ∧
      Y ∈ (run reg env (fuel + 1) [X]).state.completed) := by
  have hstep : executeAction reg env (fuel + 1) X [] ⟨[], []⟩ =
      andThen (executeAction reg env fuel Y [] ⟨[], []⟩)
        (fun stC => ({ stC with completed := insertC X stC.completed }, none)) := by
    rw [executeAction_unfold_name reg env fuel X [] ⟨[], []⟩ Y [] [] hX, hY]
    rfl
  rcases hrY : executeAction reg env fuel Y [] ⟨[], []⟩ with ⟨stY, erY⟩
  cases erY with
  | none =>
    have hXr : run reg env (fuel + 1) [X] =
        ⟨⟨insertC X stY.completed, stY.trace⟩, [], none⟩ := by
      show runLoop reg env (fuel + 1) [X] ⟨[], []⟩ = _
      simp only [runLoop, hstep, hrY, andThen]
    have hYr : run reg env fuel [Y] = ⟨stY, [], none⟩ := by
      show runLoop reg env fuel [Y] ⟨[], []⟩ = _
      simp only [runLoop, hrY]
    rw [hXr, hYr]
    refine ⟨rfl, rfl, fun _ => ⟨mem_insertC_self, ?_⟩⟩
    exact mem_insertC_of_mem (executeAction_complete reg env fuel Y [] ⟨[], []⟩ stY hrY)
  | some e =>
    have hXr : run reg env (fuel + 1) [X] = ⟨stY, [X], some e⟩ := by
      show runLoop reg env (fuel + 1) [X] ⟨[], []⟩ = _
      simp only [runLoop, hstep, hrY, andThen]
    have hYr : run reg env fuel [Y] = ⟨stY, [Y], some e⟩ := by
      show runLoop reg env fuel [Y] ⟨[], []⟩ = _
      simp only [runLoop, hrY]
    rw [hXr, hYr]
    exact ⟨rfl, rfl, by simp⟩

theorem C6_alias_transparent_witness :
    (run ACTIONS envTrue 6 ["build"]).state.trace =
      (run ACTIONS envTrue 5 ["all"]).state.trace ∧
    "build" ∈ (run ACTIONS envTrue 6 ["build"]).state.completed ∧
    "all" ∈ (run ACTIONS envTrue 6 ["build"]).state.completed :=
  ⟨(C6_alias_transparent ACTIONS envTrue 5 "build" "all"
      (Operation.func Handler.build_target, [], ["menuconfig", "clean", "fullclean"])
      (by rfl) (by rfl)).1,
   (C6_alias_transparent ACTIONS envTrue 5 "build" "all"
      (Operation.func Handler.build_target, [], ["menuconfig", "clean", "fullclean"])
      (by rfl) (by rfl)).2.2 (by rfl)⟩

/-- C7: in any run over the shipped registry, a successful run exits with
code 0; a run in which some handler invocation fails propagates exactly
that `FatalError` to the top level, which exits with code 2; the failing
invocation is the last trace entry (nothing ran after it), and any action
not completed at that point — other than the failing one — was never
executed, in particular no later-requested, not-yet-completed action. -/
theorem C7_failfast_exitcodes (env : HandlerEnv) (fuel : Nat) (actions : List String) :
    ((run ACTIONS env fuel actions).err = none →
      exitCode (run ACTIONS env fuel actions) = 0) ∧
    (∀ (h : Handler) (a : String),
      (run ACTIONS env fuel actions).err = some (RunError.fatal h a) →
      exitCode (run ACTIONS env fuel actions) = 2 ∧
      (run ACTIONS env fuel actions).state.trace.getLast? = some (h, a) ∧
      ∀ b, b ∉ (run ACTIONS env fuel actions).state.completed → b ≠ a →
        b ∉ traceNames (run ACTIONS env fuel actions).state) := by
  obtain ⟨hcore, herr, hok⟩ := run_inv ACTIONS env fuel actions
  constructor
  · intro hnone
    rw [exitCode, hnone]
  · intro h a hfat
    rw [hfat] at herr
    obtain ⟨hlast, hdrop⟩ := herr
    refine ⟨?_, hlast, ?_⟩
    · rw [exitCode, hfat]
    · intro b hbc hba hbn
      obtain ⟨p, hp, rfl⟩ := List.mem_map.mp hbn
      rcases mem_dropLast_or_eq hlast p hp with hin | hlastp
      · exact hbc (hdrop p hin)
      · rw [hlastp] at hba
        exact hba rfl

theorem C7_failfast_exitcodes_witness :
    exitCode (run ACTIONS envFailClean 10 ["fullclean", "clean", "menuconfig"]) = 2 ∧
    "menuconfig" ∉
      traceNames (run ACTIONS envFailClean 10 ["fullclean", "clean", "menuconfig"]).state :=
  ⟨((C7_failfast_exitcodes envFailClean 10 ["fullclean", "clean", "menuconfig"]).2
      Handler.clean "clean" (by rfl)).1,
   ((C7_failfast_exitcodes envFailClean 10 ["fullclean", "clean", "menuconfig"]).2
      Handler.clean "clean" (by rfl)).2.2 "menuconfig" (by decide) (by decide)⟩

theorem andThen_runSeq_nil (f : String → St → St × Option RunError)
    (r : St × Option RunError) : andThen r (runSeq f []) = r := by
  obtain ⟨st, e⟩ := r
  cases e with
  | none => rfl
  | some e => rfl

theorem split_single_prec {x q : Handler × String} {A : String} (hx : x.2 ≠ A) :
    ∀ t1 p t2, [x] = t1 ++ p :: t2 → p.2 = A → q ∈ t1 := by
  intro t1 p t2 hsplit hpA
  cases t1 with
  | nil =>
    rw [List.nil_append] at hsplit
    injection hsplit with h1 h2
    exact absurd hpA (h1 ▸ hx)
  | cons b t1b =>
    rw [List.cons_append] at hsplit
    injection hsplit with h1 h2
    simp at h2

theorem split_pair_prec {x y : Handler × String} {A : String} (hx : x.2 ≠ A) :
    ∀ t1 p t2, [x, y] = t1 ++ p :: t2 → p.2 = A → x ∈ t1 := by
  intro t1 p t2 hsplit hpA
  cases t1 with
  | nil =>
    rw [List.nil_append] at hsplit
    injection hsplit with h1 h2
    exact absurd hpA (h1 ▸ hx)
  | cons b t1b =>
    rw [List.cons_append] at hsplit
    injection hsplit with h1 h2
    subst h1
    exact List.mem_cons_self _ _

/-- C3: for any registry containing an action `A` whose only dependency is
the order-only dependency `D`, and an independent action `D` (both with
concrete handlers): requesting `[A]` alone never invokes `D`'s handler;
requesting `[A, D]` invokes `D`'s handler exactly once, and every
invocation of `A` comes strictly after it; requesting `[D, A]` likewise
invokes `D` exactly once and before any invocation of `A`.  (`n + 2` is
any recursion budget big enough for the one nested resolution step.) -/
theorem C3_order_only_conditional (reg : Registry) (env : HandlerEnv) (n : Nat)
    (A D : String) (hA0 hD0 : Handler)
    (hAlk : lookupAction reg A = some (Operation.func hA0, [], [D]))
    (hDlk : lookupAction reg D = some (Operation.func hD0, [], []))
    (hne : A ≠ D) :
    (D ∉ traceNames (run reg env (n + 2) [A]).state) ∧
    (List.count D (traceNames (run reg env (n + 2) [A, D]).state) = 1) ∧
    (∀ t1 p t2, (run reg env (n + 2) [A, D]).state.trace = t1 ++ p :: t2 →
      p.2 = A → (hD0, D) ∈ t1) ∧
    (List.count D (traceNames (run reg env (n + 2) [D, A]).state) = 1) ∧
    (∀ t1 p t2, (run reg env (n + 2) [D, A]).state.trace = t1 ++ p :: t2 →
      p.2 = A → (hD0, D) ∈ t1) := by
  have hDA : D ≠ A := Ne.symm hne
  -- scenario [A]: the order-only dependency is not in the remaining queue
  have hA1 : executeAction reg env (n + 2) A [] ⟨[], []⟩ =
      if env hA0 A then (⟨insertC A [], [] ++ [(hA0, A)]⟩, none)
      else (⟨[], [] ++ [(hA0, A)]⟩, some (RunError.fatal hA0 A)) :=
    executeAction_invoke reg env (n + 1) A hA0 [D] [] ⟨[], []⟩ hAlk
      (by intro d hd; simp) (by simp)
  -- scenario [A, D]: the A step first resolves D through the order loop
  have hD1 : executeAction reg env (n + 1) D [D] ⟨[], []⟩ =
      if env hD0 D then (⟨[D], [(hD0, D)]⟩, none)
      else (⟨[], [(hD0, D)]⟩, some (RunError.fatal hD0 D)) :=
    executeAction_invoke reg env n D hD0 [] [D] ⟨[], []⟩ hDlk
      (by intro d hd; simp at hd) (by simp)
  have horder : runSeq (fun d st1 =>
      if d ∈ [D] ∧ d ∉ st1.completed then executeAction reg env (n + 1) d [D] st1
      else (st1, none)) [D] ⟨[], []⟩ =
      executeAction reg env (n + 1) D [D] ⟨[], []⟩ := by
    show andThen (if D ∈ [D] ∧ D ∉ (⟨[], []⟩ : St).completed then
        executeAction reg env (n + 1) D [D] ⟨[], []⟩ else (⟨[], []⟩, none))
      (runSeq (fun d st1 =>
        if d ∈ [D] ∧ d ∉ st1.completed then executeAction reg env (n + 1) d [D] st1
        else (st1, none)) []) = _
    rw [andThen_runSeq_nil, if_pos ⟨List.mem_singleton.mpr rfl, by simp⟩]
  have hstep2 : executeAction reg env (n + 2) A [D] ⟨[], []⟩ =
      andThen (executeAction reg env (n + 1) D [D] ⟨[], []⟩) (fun stB =>
        andThen (if A ∈ stB.completed then (stB, none)
          else ({ stB with trace := stB.trace ++ [(hA0, A)] },
                if env hA0 A then none else some (RunError.fatal hA0 A)))
          (fun stC => ({ stC with completed := insertC A stC.completed }, none))) := by
    rw [executeAction_unfold_func reg env (n + 1) A [D] ⟨[], []⟩ hA0 [] [D] hAlk]
    show andThen (runSeq (fun d st1 =>
        if d ∈ [D] ∧ d ∉ st1.completed then executeAction reg env (n + 1) d [D] st1
        else (st1, none)) [D] ⟨[], []⟩) (fun stB =>
      andThen (if A ∈ stB.completed then (stB, none)
        else ({ stB with trace := stB.trace ++ [(hA0, A)] },
              if env hA0 A then none else some (RunError.fatal hA0 A)))
        (fun stC => ({ stC with completed := insertC A stC.completed }, none))) = _
    rw [horder]
  -- scenario [D, A]: D is invoked directly, then A with nothing remaining
  have hD3 : executeAction reg env (n + 2) D [A] ⟨[], []⟩ =
      if env hD0 D then (⟨[D], [(hD0, D)]⟩, none)
      else (⟨[], [(hD0, D)]⟩, some (RunError.fatal hD0 D)) :=
    executeAction_invoke reg env (n + 1) D hD0 [] [A] ⟨[], []⟩ hDlk
      (by intro d hd; simp at hd) (by simp)
  have hADmem : A ∉ ([D] : List String) := by simp [hne]
  cases henvD : env hD0 D with
  | false =>
    have hneD : ¬ env hD0 D = true := by rw [henvD]; exact Bool.false_ne_true
    have hD1f : executeAction reg env (n + 1) D [D] ⟨[], []⟩ =
        (⟨[], [(hD0, D)]⟩, some (RunError.fatal hD0 D)) := by
      rw [hD1, if_neg hneD]
    have hA2 : executeAction reg env (n + 2) A [D] ⟨[], []⟩ =
        (⟨[], [(hD0, D)]⟩, some (RunError.fatal hD0 D)) := by
      rw [hstep2, hD1f, andThen_err rfl]
    have hr2 : run reg env (n + 2) [A, D] =
        ⟨⟨[], [(hD0, D)]⟩, [A, D], some (RunError.fatal hD0 D)⟩ := by
      show runLoop reg env (n + 2) [A, D] ⟨[], []⟩ = _
      simp only [runLoop, hA2]
    have hD3f : executeAction reg env (n + 2) D [A] ⟨[], []⟩ =
        (⟨[], [(hD0, D)]⟩, some (RunError.fatal hD0 D)) := by
      rw [hD3, if_neg hneD]
    have hr3 : run reg env (n + 2) [D, A] =
        ⟨⟨[], [(hD0, D)]⟩, [D, A], some (RunError.fatal hD0 D)⟩ := by
      show runLoop reg env (n + 2) [D, A] ⟨[], []⟩ = _
      simp only [runLoop, hD3f]
    cases henvA : env hA0 A with
    | true =>
      have hA1t : executeAction reg env (n + 2) A [] ⟨[], []⟩ =
          (⟨insertC A [], [(hA0, A)]⟩, none) := by
        rw [hA1, if_pos henvA]
        rfl
      have hr1 : run reg env (n + 2) [A] = ⟨⟨insertC A [], [(hA0, A)]⟩, [], none⟩ := by
        show runLoop reg env (n + 2) [A] ⟨[], []⟩ = _
        simp only [runLoop, hA1t]
      refine ⟨?_, ?_, ?_, ?_, ?_⟩
      · rw [hr1]
        exact fun hmem => hne (List.mem_singleton.mp hmem).symm
      · rw [hr2]
        show List.count D [D] = 1
        rw [List.count_cons_self, List.count_nil]
      · rw [hr2]
        exact split_single_prec hDA
      · rw [hr3]
        show List.count D [D] = 1
        rw [List.count_cons_self, List.count_nil]
      · rw [hr3]
        exact split_single_prec hDA
    | false =>
      have hneA : ¬ env hA0 A = true := by rw [henvA]; exact Bool.false_ne_true
      have hA1f : executeAction reg env (n + 2) A [] ⟨[], []⟩ =
          (⟨[], [(hA0, A)]⟩, some (RunError.fatal hA0 A)) := by
        rw [hA1, if_neg hneA]
        rfl
      have hr1 : run reg env (n + 2) [A] =
          ⟨⟨[], [(hA0, A)]⟩, [A], some (RunError.fatal hA0 A)⟩ := by
        show runLoop reg env (n + 2) [A] ⟨[], []⟩ = _
        simp only [runLoop, hA1f]
      refine ⟨?_, ?_, ?_, ?_, ?_⟩
      · rw [hr1]
        exact fun hmem => hne (List.mem_singleton.mp hmem).symm
      · rw [hr2]
        show List.count D [D] = 1
        rw [List.count_cons_self, List.count_nil]
      · rw [hr2]
        exact split_single_prec hDA
      · rw [hr3]
        show List.count D [D] = 1
        rw [List.count_cons_self, List.count_nil]
      · rw [hr3]
        exact split_single_prec hDA
  | true =>
    have hD1t : executeAction reg env (n + 1) D [D] ⟨[], []⟩ =
        (⟨[D], [(hD0, D)]⟩, none) := by
      rw [hD1, if_pos henvD]
    have hD3t : executeAction reg env (n + 2) D [A] ⟨[], []⟩ =
        (⟨[D], [(hD0, D)]⟩, none) := by
      rw [hD3, if_pos henvD]
    cases henvA : env hA0 A with
    | true =>
      have hA1t : executeAction reg env (n + 2) A [] ⟨[], []⟩ =
          (⟨insertC A [], [(hA0, A)]⟩, none) := by
        rw [hA1, if_pos henvA]
        rfl
      have hr1 : run reg env (n + 2) [A] = ⟨⟨insertC A [], [(hA0, A)]⟩, [], none⟩ := by
        show runLoop reg env (n + 2) [A] ⟨[], []⟩ = _
        simp only [runLoop, hA1t]
      have hA2 : executeAction reg env (n + 2) A [D] ⟨[], []⟩ =
          (⟨insertC A [D], [(hD0, D), (hA0, A)]⟩, none) := by
        rw [hstep2, hD1t, andThen_ok rfl]
        show andThen (if A ∈ (⟨[D], [(hD0, D)]⟩ : St).completed then (⟨[D], [(hD0, D)]⟩, none)
            else ({ (⟨[D], [(hD0, D)]⟩ : St) with trace := (⟨[D], [(hD0, D)]⟩ : St).trace ++ [(hA0, A)] },
                  if env hA0 A then none else some (RunError.fatal hA0 A)))
          (fun stC => ({ stC with completed := insertC A stC.completed }, none)) = _
        rw [if_neg hADmem, if_pos henvA, andThen_ok rfl]
        rfl
      have hnoop2 : executeAction reg env (n + 2) D []
          ⟨insertC A [D], [(hD0, D), (hA0, A)]⟩ =
          (⟨insertC A [D], [(hD0, D), (hA0, A)]⟩, none) :=
        executeAction_noop reg env (n + 1) D [] _ (Operation.func hD0) [] [] hDlk
          (mem_insertC_of_mem (List.mem_singleton.mpr rfl))
          (by intro d hd; cases hd) (by intro d hd; cases hd)
      have hr2 : run reg env (n + 2) [A, D] =
          ⟨⟨insertC A [D], [(hD0, D), (hA0, A)]⟩, [], none⟩ := by
        show runLoop reg env (n + 2) [A, D] ⟨[], []⟩ = _
        simp only [runLoop, hA2, hnoop2]
      have hA3 : executeAction reg env (n + 2) A [] ⟨[D], [(hD0, D)]⟩ =
          (⟨insertC A [D], [(hD0, D), (hA0, A)]⟩, none) := by
        have hbase := executeAction_invoke reg env (n + 1) A hA0 [D] [] ⟨[D], [(hD0, D)]⟩
          hAlk (by intro d hd; simp) hADmem
        rw [hbase, if_pos henvA]
        rfl
      have hr3 : run reg env (n + 2) [D, A] =
          ⟨⟨insertC A [D], [(hD0, D), (hA0, A)]⟩, [], none⟩ := by
        show runLoop reg env (n + 2) [D, A] ⟨[], []⟩ = _
        simp only [runLoop, hD3t, hA3]
      refine ⟨?_, ?_, ?_, ?_, ?_⟩
      · rw [hr1]
        exact fun hmem => hne (List.mem_singleton.mp hmem).symm
      · rw [hr2]
        show List.count D [D, A] = 1
        rw [List.count_cons_self, List.count_cons_of_ne hDA, List.count_nil]
      · rw [hr2]
        exact split_pair_prec hDA
      · rw [hr3]
        show List.count D [D, A] = 1
        rw [List.count_cons_self, List.count_cons_of_ne hDA, List.count_nil]
      · rw [hr3]
        exact split_pair_prec hDA
    | false =>
      have hneA : ¬ env hA0 A = true := by rw [henvA]; exact Bool.false_ne_true
      have hA1f : executeAction reg env (n + 2) A [] ⟨[], []⟩ =
          (⟨[], [(hA0, A)]⟩, some (RunError.fatal hA0 A)) := by
        rw [hA1, if_neg hneA]
        rfl
      have hr1 : run reg env (n + 2) [A] =
          ⟨⟨[], [(hA0, A)]⟩, [A], some (RunError.fatal hA0 A)⟩ := by
        show runLoop reg env (n + 2) [A] ⟨[], []⟩ = _
        simp only [runLoop, hA1f]
      have hA2 : executeAction reg env (n + 2) A [D] ⟨[], []⟩ =
          (⟨[D], [(hD0, D), (hA0, A)]⟩, some (RunError.fatal hA0 A)) := by
        rw [hstep2, hD1t, andThen_ok rfl]
        show andThen (if A ∈ (⟨[D], [(hD0, D)]⟩ : St).completed then (⟨[D], [(hD0, D)]⟩, none)
            else ({ (⟨[D], [(hD0, D)]⟩ : St) with trace := (⟨[D], [(hD0, D)]⟩ : St).trace ++ [(hA0, A)] },
                  if env hA0 A then none else some (RunError.fatal hA0 A)))
          (fun stC => ({ stC with completed := insertC A stC.completed }, none)) = _
        rw [if_neg hADmem, if_neg hneA, andThen_err rfl]
        rfl
      have hr2 : run reg env (n + 2) [A, D] =
          ⟨⟨[D], [(hD0, D), (hA0, A)]⟩, [A, D], some (RunError.fatal hA0 A)⟩ := by
        show runLoop reg env (n + 2) [A, D] ⟨[], []⟩ = _
        simp only [runLoop, hA2]
      have hA3 : executeAction reg env (n + 2) A [] ⟨[D], [(hD0, D)]⟩ =
          (⟨[D], [(hD0, D), (hA0, A)]⟩, some (RunError.fatal hA0 A)) := by
        have hbase := executeAction_invoke reg env (n + 1) A hA0 [D] [] ⟨[D], [(hD0, D)]⟩
          hAlk (by intro d hd; simp) hADmem
        rw [hbase, if_neg hneA]
        rfl
      have hr3 : run reg env (n + 2) [D, A] =
          ⟨⟨[D], [(hD0, D), (hA0, A)]⟩, [A], some (RunError.fatal hA0 A)⟩ := by
        show runLoop reg env (n + 2) [D, A] ⟨[], []⟩ = _
        simp only [runLoop, hD3t, hA3]
      refine ⟨?_, ?_, ?_, ?_, ?_⟩
      · rw [hr1]
        exact fun hmem => hne (List.mem_singleton.mp hmem).symm
      · rw [hr2]
        show List.count D [D, A] = 1
        rw [List.count_cons_self, List.count_cons_of_ne hDA, List.count_nil]
      · rw [hr2]
        exact split_pair_prec hDA
      · rw [hr3]
        show List.count D [D, A] = 1
        rw [List.count_cons_self, List.count_cons_of_ne hDA, List.count_nil]
      · rw [hr3]
        exact split_pair_prec hDA

theorem C3_order_only_conditional_witness :
    "fullclean" ∉ traceNames (run ACTIONS envTrue 2 ["clean"]).state ∧
    List.count "fullclean"
      (traceNames (run ACTIONS envTrue 2 ["clean", "fullclean"]).state) = 1 ∧
    List.count "fullclean"
      (traceNames (run ACTIONS envTrue 2 ["fullclean", "clean"]).state) = 1 :=
  ⟨(C3_order_only_conditional ACTIONS envTrue 0 "clean" "fullclean"
      Handler.clean Handler.fullclean (by rfl) (by rfl) (by decide)).1,
   (C3_order_only_conditional ACTIONS envTrue 0 "clean" "fullclean"
      Handler.clean Handler.fullclean (by rfl) (by rfl) (by decide)).2.1,
   (C3_order_only_conditional ACTIONS envTrue 0 "clean" "fullclean"
      Handler.clean Handler.fullclean (by rfl) (by rfl) (by decide)).2.2.2.1⟩
